import Mathlib

/-!
Verification of the p-split change-detection and diff-presentation pipeline.

The development shallowly embeds the two core components of the repository:

* the hunk segmenter of `src/components/DiffView.tsx` (the `splitLines`
  helper and the loop over the line-level edit script inside
  `processedFiles`), and
* the tree differ of the git engine module (`getChangedFiles`,
  `getFileContent`).

Texts are modelled as lists of characters; the line-level edit script
(produced upstream by the external `diffLines` library) is modelled as a
list of `Change` records, exactly as consumed by the segmenter loop.
-/

namespace PSplit

/-! ## Definitions: texts and line splitting -/

/-- A text (file content, line, or run value) is a list of characters. -/
abbrev Text := List Char

/-- JavaScript `text.split('\n')`: cuts the text at every newline character,
keeping empty segments, so the result always has at least one element
(`"".split('\n') = [""]`). -/
def splitOnNl : Text → List Text
  | [] => [[]]
  | c :: rest =>
    if c = '\n' then [] :: splitOnNl rest
    else
      match splitOnNl rest with
      | [] => [[c]]
      | s :: ss => (c :: s) :: ss

/-- `splitLines` from `DiffView.tsx` (lines 32–38): empty text yields no
lines; otherwise split on `'\n'`, drop a trailing empty segment, and append
a `'\n'` to every produced line. -/
def splitLines (text : Text) : List Text :=
  if text = [] then []
  else
    (if (splitOnNl text).getLast? = some [] then (splitOnNl text).dropLast
      else splitOnNl text).map (fun line => line ++ ['\n'])

/-- A proper line: some newline-free content followed by a terminator. -/
def ProperLine (l : Text) : Prop := ∃ s : Text, l = s ++ ['\n'] ∧ '\n' ∉ s

/-- A text every one of whose lines is terminated. -/
def Lineated (v : Text) : Prop :=
  ∃ ls : List Text, (∀ l ∈ ls, ProperLine l) ∧ v = ls.flatten

/-- A text whose lines are terminated except possibly an unterminated final
line (the shape of any file content). -/
def LooseLineated (v : Text) : Prop :=
  ∃ ls : List Text, ∃ t : Text,
    (∀ l ∈ ls, ProperLine l) ∧ '\n' ∉ t ∧ v = ls.flatten ++ t

/-! ## Definitions: the hunk segmenter (`DiffView.tsx`, `processedFiles`) -/

/-- A run of the line-level edit script, as produced upstream by the
external `diffLines` library and consumed by the segmenter loop: the run's
text and its classification flags (`added`/`removed` both false means an
unchanged run). -/
structure Change where
  value : Text
  added : Bool
  removed : Bool
deriving DecidableEq

/-- `change.added || change.removed` (DiffView.tsx line 42). -/
def isDiff (c : Change) : Bool := c.added || c.removed

/-- A synthesized unchanged context run
(`{ value, added: false, removed: false }`). -/
def mkContext (v : Text) : Change := ⟨v, false, false⟩

/-- A hunk, as accumulated by the loop: the list of its runs. -/
abbrev Hunk := List Change

/-- `CONTEXT_LINES` (DiffView.tsx line 15). -/
def CONTEXT_LINES : Nat := 3

/-- The segmenter loop of `DiffView.tsx` (lines 40–99), parameterized by
the context size (the source fixes it to `CONTEXT_LINES = 3`). The three
list/flag arguments are the loop state: remaining changes, `currentHunk`,
and `lastChangeWasDiff`; emitted hunks are returned in order, including the
final flush of a non-empty `currentHunk`. -/
def segmentGo (ctx : Nat) : List Change → Hunk → Bool → List Hunk
  | [], currentHunk, _ => if currentHunk = [] then [] else [currentHunk]
  | change :: rest, currentHunk, lastChangeWasDiff =>
    if isDiff change then
      segmentGo ctx rest (currentHunk ++ [change]) true
    else
      let lines := splitLines change.value
      if lastChangeWasDiff then
        if rest = [] then
          if lines.length > ctx then
            (currentHunk ++ [mkContext (lines.take ctx).flatten]) ::
              segmentGo ctx rest [] false
          else
            (currentHunk ++ [change]) :: segmentGo ctx rest [] false
        else
          if lines.length ≤ ctx * 2 then
            segmentGo ctx rest (currentHunk ++ [change]) false
          else
            (currentHunk ++ [mkContext (lines.take ctx).flatten]) ::
              segmentGo ctx rest
                [mkContext ((lines.drop (lines.length - ctx)).flatten)] false
      else
        if lines.length > ctx then
          segmentGo ctx rest
            (currentHunk ++ [mkContext ((lines.drop (lines.length - ctx)).flatten)])
            false
        else
          segmentGo ctx rest (currentHunk ++ [change]) false

/-- Segment a whole edit script starting from the empty loop state: this is
what `processedFiles` computes per file. -/
def segment (ctx : Nat) (changes : List Change) : List Hunk :=
  segmentGo ctx changes [] false

/-- The renderer shows an elided-gap divider before every hunk except the
first (`hunkIndex > 0`, DiffView.tsx line 113). -/
def showsGapDivider (hunkIndex : Nat) : Bool := decide (0 < hunkIndex)

/-- Concatenation of the values of the runs selected by `keep`, in order:
with `keep := (!·.added)` this is the original-side text (Unchanged plus
Removed runs), with `keep := (!·.removed)` the modified-side text. -/
def sideText (keep : Change → Bool) (cs : List Change) : Text :=
  ((cs.filter keep).map Change.value).flatten

/-- The hunks `hs`, restricted to the runs selected by `keep`, reconstruct
`text` once the elided context is re-inserted: there is one gap text in
front of each hunk and one trailing gap whose interleaving with the hunks'
side texts yields `text` exactly. -/
def ReconstructsTo (keep : Change → Bool) (hs : List Hunk) (text : Text) : Prop :=
  ∃ gaps : List Text, ∃ tailGap : Text, gaps.length = hs.length ∧
    text = (List.zipWith (fun g h => g ++ sideText keep h) gaps hs).flatten ++ tailGap

/-- Number of lines of a run's value, as the segmenter measures it. -/
def lineCount (c : Change) : Nat := (splitLines c.value).length

/-- Coalesced edit script: no two adjacent unchanged runs (§4.3 requires
runs of consecutive same-kind lines to be coalesced, and `diffLines` never
emits two adjacent unchanged runs). -/
def altOk (cs : List Change) : Prop :=
  List.Chain' (fun a b => isDiff a = true ∨ isDiff b = true) cs

/-! ## Definitions: the tree differ (git engine module) -/

/-- Entry kind reported by the walker: `'blob'` (file) or `'tree'`
(directory). -/
inductive EntryType
  | blob
  | tree
deriving DecidableEq

/-- A readable walker entry: its kind and content-addressed object id. -/
structure TreeEntry where
  etype : EntryType
  oid : String
deriving DecidableEq

/-- A resolved snapshot, modelled as the finite path→entry mapping that the
isomorphic-git `walk` traverses: one association per path, directories
included with entries of kind `tree`. -/
abbrev Snapshot := List (String × TreeEntry)

/-- The paths of a snapshot. -/
def keys (s : Snapshot) : List String := s.map Prod.fst

/-- Resolve a path in a snapshot (the `baseEntry` / `targetEntry` argument
of the walk callback; `none` when the path is absent on that side). -/
def entryAt (s : Snapshot) (p : String) : Option TreeEntry := List.lookup p s

/-- The `status` values of the `FileDiff` interface (git module lines
32–35); `unmodified` is declared by the interface. -/
inductive FileStatus
  | added
  | modified
  | deleted
  | unmodified
deriving DecidableEq

/-- One change record pushed by the walk callback. -/
structure FileDiff where
  path : String
  status : FileStatus
deriving DecidableEq

/-- The `map` callback of `getChangedFiles` (git module lines 60–78): skip
the root `'.'`, skip any path that is a directory on either side, then
compare object ids; `none` means nothing is pushed for this path. -/
def mapEntry (base target : Snapshot) (filepath : String) : Option FileDiff :=
  if filepath = "." then none
  else if (entryAt base filepath).map TreeEntry.etype = some EntryType.tree ∨
      (entryAt target filepath).map TreeEntry.etype = some EntryType.tree then
    none
  else
    let baseOid := (entryAt base filepath).map TreeEntry.oid
    let targetOid := (entryAt target filepath).map TreeEntry.oid
    if baseOid = none ∧ targetOid ≠ none then some ⟨filepath, FileStatus.added⟩
    else if baseOid ≠ none ∧ targetOid = none then some ⟨filepath, FileStatus.deleted⟩
    else if baseOid ≠ targetOid then some ⟨filepath, FileStatus.modified⟩
    else none

/-- Model of the isomorphic-git `walk` traversal: the root `'.'` followed
by every path present in either snapshot, each visited once (base paths
first, then target-only paths). -/
def walkPaths (base target : Snapshot) : List String :=
  "." :: (keys base ++ (keys target).filter (fun p => decide (p ∉ keys base)))

/-- `getChangedFiles` in the error-free case: every walked path goes
through the callback and the pushed records are returned in walk order. -/
def getChangedFiles (base target : Snapshot) : List FileDiff :=
  (walkPaths base target).filterMap (mapEntry base target)

/-- A walker entry whose type/oid reads may fail (a rejected promise
carrying the given message). -/
inductive WalkEntry
  | readable (e : TreeEntry)
  | unreadable (msg : String)
deriving DecidableEq

/-- A snapshot some of whose entries may be unreadable. -/
abbrev FSnapshot := List (String × WalkEntry)

/-- Resolve a path in a fallible snapshot. -/
def fentryAt (s : FSnapshot) (p : String) : Option WalkEntry := List.lookup p s

/-- The paths of a fallible snapshot. -/
def fkeys (s : FSnapshot) : List String := s.map Prod.fst

/-- Walk order over fallible snapshots (same model as `walkPaths`). -/
def fwalkPaths (base target : FSnapshot) : List String :=
  "." :: (fkeys base ++ (fkeys target).filter (fun p => decide (p ∉ fkeys base)))

/-- Awaiting `entry?.type()` / `entry?.oid()`: an absent entry reads as
`none`, a readable one as its data, an unreadable one rejects. -/
def readEntry (e : Option WalkEntry) : Except String (Option TreeEntry) :=
  match e with
  | none => Except.ok none
  | some (WalkEntry.readable t) => Except.ok (some t)
  | some (WalkEntry.unreadable m) => Except.error m

/-- The walk callback over fallible entries: reading the type or oid of an
unreadable entry rejects, and the rejection propagates out of the walk. -/
def mapEntryE (base target : FSnapshot) (filepath : String) :
    Except String (Option FileDiff) :=
  if filepath = "." then Except.ok none
  else
    match readEntry (fentryAt base filepath), readEntry (fentryAt target filepath) with
    | Except.error m, _ => Except.error m
    | _, Except.error m => Except.error m
    | Except.ok be, Except.ok te =>
      if be.map TreeEntry.etype = some EntryType.tree ∨
          te.map TreeEntry.etype = some EntryType.tree then
        Except.ok none
      else
        let baseOid := be.map TreeEntry.oid
        let targetOid := te.map TreeEntry.oid
        Except.ok
          (if baseOid = none ∧ targetOid ≠ none then some ⟨filepath, FileStatus.added⟩
            else if baseOid ≠ none ∧ targetOid = none then some ⟨filepath, FileStatus.deleted⟩
            else if baseOid ≠ targetOid then some ⟨filepath, FileStatus.modified⟩
            else none)

/-- Run the walk callback over the visited paths, rejecting the whole walk
at the first failing entry (the promise semantics of `walk`). -/
def walkAll (f : String → Except String (Option FileDiff)) :
    List String → Except String (List FileDiff)
  | [] => Except.ok []
  | p :: ps =>
    match f p with
    | Except.error m => Except.error m
    | Except.ok none => walkAll f ps
    | Except.ok (some r) => (walkAll f ps).map (fun rs => r :: rs)

/-- The known isomorphic-git failure message that the catch block of
`getChangedFiles` special-cases. -/
def nullSliceNeedle : String := "Cannot read properties of null (reading 'slice')"

/-- The friendlier message substituted for the known failure. -/
def bigRepoMessage : String :=
  "Failed to load diff. The repository might be too large for the browser to handle (isomorphic-git limitation)."

/-- `getChangedFiles` over fallible entries (git module lines 54–88): the
walk's rejection is caught, translated when it contains the known
null-slice text, and re-thrown — the whole diff aborts. -/
def getChangedFilesE (base target : FSnapshot) : Except String (List FileDiff) :=
  match walkAll (mapEntryE base target) (fwalkPaths base target) with
  | Except.ok files => Except.ok files
  | Except.error m =>
    Except.error
      (if List.IsInfix nullSliceNeedle.toList m.toList then bigRepoMessage else m)

/-- `getFileContent` (git module lines 91–103): resolve the ref, read the
blob at the path, decode; any failure anywhere is caught and the empty
string is returned. The two git operations are external collaborators and
are passed in as fallible functions. -/
def getFileContent (resolveRef : String → Except String String)
    (readBlob : String → String → Except String Text)
    (ref filepath : String) : Text :=
  match (resolveRef ref).bind (fun oid => readBlob oid filepath) with
  | Except.ok blob => blob
  | Except.error _ => []

/-! ## Lemmas on line splitting -/

theorem splitOnNl_ne_nil (t : Text) : splitOnNl t ≠ [] := by
  cases t with
  | nil => simp [splitOnNl]
  | cons c rest =>
    simp only [splitOnNl]
    split
    · simp
    · split <;> simp

theorem splitOnNl_no_nl {t : Text} (h : '\n' ∉ t) : splitOnNl t = [t] := by
  induction t with
  | nil => simp [splitOnNl]
  | cons c rest ih =>
    simp only [List.mem_cons, not_or] at h
    simp [splitOnNl, Ne.symm h.1, ih h.2]

theorem splitOnNl_line_append {s : Text} (t : Text) (h : '\n' ∉ s) :
    splitOnNl (s ++ '\n' :: t) = s :: splitOnNl t := by
  induction s with
  | nil => simp [splitOnNl]
  | cons c s ih =>
    simp only [List.mem_cons, not_or] at h
    simp only [List.cons_append, splitOnNl, if_neg (Ne.symm h.1),
      List.append_eq, ih h.2]

theorem splitOnNl_flatten_append {ls : List Text} {t : Text}
    (hls : ∀ l ∈ ls, ProperLine l) (ht : '\n' ∉ t) :
    splitOnNl (ls.flatten ++ t) = ls.map List.dropLast ++ [t] := by
  induction ls with
  | nil => simp [splitOnNl_no_nl ht]
  | cons l ls ih =>
    obtain ⟨s, rfl, hs⟩ := hls l (by simp)
    have ih' := ih (fun l hl => hls l (by simp [hl]))
    simp only [List.flatten_cons, List.append_assoc, List.singleton_append,
      splitOnNl_line_append _ hs, List.map_cons, List.dropLast_concat,
      List.cons_append, List.nil_append, ih']

/-- Segments produced by `splitOnNl` never contain a newline. -/
theorem splitOnNl_mem_no_nl {t : Text} : ∀ {s}, s ∈ splitOnNl t → '\n' ∉ s := by
  induction t with
  | nil =>
    intro s hs
    simp [splitOnNl] at hs
    simp [hs]
  | cons c rest ih =>
    intro s hs
    simp only [splitOnNl] at hs
    split at hs
    · rcases List.mem_cons.mp hs with rfl | h
      · simp
      · exact ih h
    · rename_i hc
      rcases hsplit : splitOnNl rest with _ | ⟨s₀, ss⟩
      · exact absurd hsplit (splitOnNl_ne_nil rest)
      · rw [hsplit] at hs
        rcases List.mem_cons.mp hs with rfl | h
        · intro hmem
          rcases List.mem_cons.mp hmem with h' | h'
          · exact hc h'.symm
          · exact ih (hsplit ▸ List.mem_cons_self s₀ ss) h'
        · exact ih (hsplit ▸ List.mem_cons_of_mem s₀ h)

/-- Evaluating `splitLines` on a text made of proper lines followed by an
optional unterminated tail line: the proper lines are recovered exactly and
the tail, when present, comes back with a terminator appended. -/
theorem splitLines_flatten_append {ls : List Text} {t : Text}
    (hls : ∀ l ∈ ls, ProperLine l) (ht : '\n' ∉ t) :
    splitLines (ls.flatten ++ t) =
      ls ++ (if t = [] then [] else [t ++ ['\n']]) := by
  by_cases hnil : ls.flatten ++ t = []
  · have h1 : ls.flatten = [] ∧ t = [] := List.append_eq_nil.mp hnil
    have hls0 : ls = [] := by
      cases ls with
      | nil => rfl
      | cons l ls =>
        obtain ⟨s, hl, _⟩ := hls l (by simp)
        exfalso
        have hlnil : l = [] := List.flatten_eq_nil_iff.mp h1.1 l (by simp)
        simp [hl] at hlnil
    simp [splitLines, hnil, hls0, h1.2]
  · rw [splitLines, if_neg hnil, splitOnNl_flatten_append hls ht]
    have hmapid : ∀ l ∈ ls, ((fun line => line ++ ['\n']) ∘ List.dropLast) l = id l := by
      intro l hl
      obtain ⟨s, rfl, _⟩ := hls l hl
      simp [List.dropLast_concat]
    by_cases htt : t = []
    · subst htt
      rw [if_pos (by simp), if_pos rfl, List.dropLast_concat, List.map_map,
        List.map_congr_left hmapid, List.map_id, List.append_nil]
    · rw [if_neg (by simp [htt]), if_neg htt, List.map_append, List.map_map,
        List.map_congr_left hmapid, List.map_id]
      simp

/-- On a fully line-terminated text, `splitLines` recovers the lines. -/
theorem splitLines_flatten {ls : List Text} (hls : ∀ l ∈ ls, ProperLine l) :
    splitLines ls.flatten = ls := by
  have h := @splitLines_flatten_append ls [] hls (by simp)
  simpa using h

/-- Every line produced by `splitLines` is a proper line. -/
theorem splitLines_proper (t : Text) : ∀ l ∈ splitLines t, ProperLine l := by
  intro l hl
  rw [splitLines] at hl
  split at hl
  · simp at hl
  · simp only [List.mem_map] at hl
    obtain ⟨s, hs, rfl⟩ := hl
    have hmem : s ∈ splitOnNl t := by
      split at hs
      · exact List.dropLast_subset _ hs
      · exact hs
    exact ⟨s, rfl, splitOnNl_mem_no_nl hmem⟩

/-! ## Claim C6: the line splitter -/

/-- C6 (counterexample): on the input "a" (no trailing terminator) the
claim predicts the single produced line comes back without a terminator;
`splitLines` instead appends one. -/
theorem c6_splitLines_cex :
    splitLines ['a'] = [['a', '\n']] ∧ splitLines ['a'] ≠ [['a']] := by
  decide

/-- C6 (amended): `splitLines` splits on line-terminator boundaries and
every produced line carries a terminator; lines terminated in the input are
returned exactly, while a final line with no trailing terminator is
returned with a terminator appended (not, as claimed, without one); the
empty input produces the empty sequence. -/
theorem c6_splitLines (ls : List Text) (t : Text)
    (hls : ∀ l ∈ ls, ProperLine l) (ht : '\n' ∉ t) :
    splitLines ([] : Text) = [] ∧
    splitLines (ls.flatten ++ t) = ls ++ (if t = [] then [] else [t ++ ['\n']]) ∧
    ∀ l ∈ splitLines (ls.flatten ++ t), ProperLine l :=
  ⟨rfl, splitLines_flatten_append hls ht, splitLines_proper _⟩

/-- C6 witness: the concrete input "a\nb" splits into ["a\n", "b\n"]. -/
theorem c6_splitLines_witness :
    splitLines ([] : Text) = [] ∧
    splitLines ([['a', '\n']].flatten ++ ['b']) =
      [['a', '\n']] ++ (if ['b'] = ([] : Text) then [] else [['b'] ++ ['\n']]) ∧
    ∀ l ∈ splitLines ([['a', '\n']].flatten ++ ['b']), ProperLine l :=
  c6_splitLines [['a', '\n']] ['b']
    (by
      intro l hl
      simp only [List.mem_singleton] at hl
      exact ⟨['a'], by simp [hl], by decide⟩)
    (by decide)

/-! ## Claim C3: identical input -/

/-- C3 (counterexample): diffing the one-line file "a\n" against itself
gives the edit script consisting of a single unchanged run; the segmenter
emits one hunk for it, not zero. -/
theorem c3_identical_cex :
    segment CONTEXT_LINES [⟨['a', '\n'], false, false⟩] ≠ [] ∧
    (segment CONTEXT_LINES [⟨['a', '\n'], false, false⟩]).length = 1 := by
  decide

/-- C3 (amended): identical inputs give the edit script consisting of one
unchanged run (the diff library's identity shortcut produces a single run
even for empty inputs), and the segmenter emits exactly one hunk for any
such script — never zero — made only of unchanged runs. -/
theorem c3_identical (ctx : Nat) (u : Change) (hu : isDiff u = false) :
    (segment ctx [u]).length = 1 ∧
    ∀ h ∈ segment ctx [u], ∀ c ∈ h, isDiff c = false := by
  simp only [segment, segmentGo, hu, Bool.false_eq_true, if_false]
  split
  · constructor
    · rfl
    · intro h hh c hc
      simp only [List.nil_append, List.cons_ne_self, if_neg, List.mem_singleton,
        reduceIte, List.mem_cons, List.not_mem_nil, or_false] at hh
      subst hh
      simp at hc
      subst hc
      rfl
  · constructor
    · rfl
    · intro h hh c hc
      simp only [List.nil_append, List.cons_ne_self, if_neg, List.mem_singleton,
        reduceIte, List.mem_cons, List.not_mem_nil, or_false] at hh
      subst hh
      simp at hc
      subst hc
      exact hu

/-- C3 witness: concrete instance at context size 3 and the empty-value
unchanged run, the edit script for a pair of empty inputs. -/
theorem c3_identical_witness :
    (segment 3 [⟨[], false, false⟩]).length = 1 ∧
    ∀ h ∈ segment 3 [⟨[], false, false⟩], ∀ c ∈ h, isDiff c = false :=
  c3_identical 3 ⟨[], false, false⟩ rfl

/-! ## Claim C9: getFileContent error behavior -/

/-- C9: `getFileContent` returns the empty text whenever the resolve/read
pipeline fails, and equally when the read succeeds with empty content, so a
file absent from a snapshot is indistinguishable at this interface from a
legitimately empty file. -/
theorem c9_getFileContent (resolveRef : String → Except String String)
    (readBlob : String → String → Except String Text) (ref filepath : String) :
    (∀ e, (resolveRef ref).bind (fun oid => readBlob oid filepath) = Except.error e →
      getFileContent resolveRef readBlob ref filepath = []) ∧
    ((resolveRef ref).bind (fun oid => readBlob oid filepath) = Except.ok [] →
      getFileContent resolveRef readBlob ref filepath = []) := by
  constructor
  · intro e he
    simp [getFileContent, he]
  · intro he
    simp [getFileContent, he]

/-- C9 witness: an unresolvable ref yields the empty text. -/
theorem c9_getFileContent_witness :
    getFileContent (fun _ => Except.error "unresolved") (fun _ _ => Except.ok ['x'])
      "feature" "a.txt" = [] :=
  (c9_getFileContent (fun _ => Except.error "unresolved")
    (fun _ _ => Except.ok ['x']) "feature" "a.txt").1 "unresolved" rfl

/-! ## Lemmas on the tree differ -/

theorem lookup_mem_fst {β : Type} {s : List (String × β)} {p : String} {e : β}
    (h : List.lookup p s = some e) : p ∈ s.map Prod.fst := by
  induction s with
  | nil => simp [List.lookup] at h
  | cons a s ih =>
    obtain ⟨k, v⟩ := a
    simp only [List.lookup] at h
    cases hk : p == k with
    | false =>
      rw [hk] at h
      exact List.mem_cons_of_mem _ (ih h)
    | true =>
      simp [eq_of_beq hk]

/-- Whatever the callback pushes carries the walked path and one of the
three emitted statuses. -/
theorem mapEntry_some {base target : Snapshot} {q : String} {r : FileDiff}
    (h : mapEntry base target q = some r) :
    r.path = q ∧ r.status ≠ FileStatus.unmodified := by
  by_cases h1 : q = "."
  · simp [mapEntry, h1] at h
  · simp only [mapEntry, if_neg h1] at h
    split at h
    · simp at h
    · split at h
      · injection h with h2
        subst h2
        exact ⟨rfl, by simp⟩
      · split at h
        · injection h with h2
          subst h2
          exact ⟨rfl, by simp⟩
        · split at h
          · injection h with h2
            subst h2
            exact ⟨rfl, by simp⟩
          · simp at h

/-- Counting records by path through `filterMap`: every record produced at
a walked path `q` carries path `q`, so the records at path `p` are exactly
the visits of `p` times the callback's yield at `p`. -/
theorem countP_path_filterMap (ps : List String) (f : String → Option FileDiff)
    (hf : ∀ q r, f q = some r → r.path = q) (p : String) :
    ((ps.filterMap f).countP (fun r => decide (r.path = p))) =
      (ps.countP (fun q => decide (q = p))) *
        (match f p with | some _ => 1 | none => 0) := by
  induction ps with
  | nil => simp
  | cons q ps ih =>
    rw [List.filterMap_cons]
    cases hq : f q with
    | none =>
      by_cases hpq : q = p
      · subst hpq
        simp [List.countP_cons, ih, hq]
      · simp [List.countP_cons, ih, hpq]
    | some r =>
      have hr : r.path = q := hf q r hq
      by_cases hpq : q = p
      · subst hpq
        simp [List.countP_cons, ih, hq, hr, Nat.succ_mul]
      · simp [List.countP_cons, ih, hpq, hr]

theorem countP_nodup_le {l : List String} (hl : l.Nodup) (p : String) :
    l.countP (fun q => decide (q = p)) ≤ 1 := by
  induction l with
  | nil => simp
  | cons a l ih =>
    rw [List.countP_cons]
    by_cases hap : a = p
    · subst hap
      have h0 : l.countP (fun q => decide (q = a)) = 0 :=
        List.countP_eq_zero.mpr (fun q hq hqa => (List.nodup_cons.mp hl).1 (by
          simpa [of_decide_eq_true hqa] using hq))
      simp [h0]
    · simpa [hap] using ih (List.nodup_cons.mp hl).2

theorem countP_nodup_mem {l : List String} (hl : l.Nodup) {p : String} (hp : p ∈ l) :
    l.countP (fun q => decide (q = p)) = 1 := by
  induction l with
  | nil => simp at hp
  | cons a l ih =>
    rw [List.countP_cons]
    rcases List.mem_cons.mp hp with rfl | hpl
    · have h0 : l.countP (fun q => decide (q = p)) = 0 :=
        List.countP_eq_zero.mpr (fun q hq hqa => (List.nodup_cons.mp hl).1 (by
          simpa [of_decide_eq_true hqa] using hq))
      simp [h0]
    · have hap : a ≠ p := fun h => (List.nodup_cons.mp hl).1 (h ▸ hpl)
      simpa [hap] using ih (List.nodup_cons.mp hl).2 hpl

theorem countP_not_mem {l : List String} {p : String} (hp : p ∉ l) :
    l.countP (fun q => decide (q = p)) = 0 :=
  List.countP_eq_zero.mpr (fun q hq hqa => hp (of_decide_eq_true hqa ▸ hq))

/-- Each path present in either snapshot is visited exactly once by the
modelled walk. -/
theorem countP_walkPaths (base target : Snapshot) (hb : (keys base).Nodup)
    (ht : (keys target).Nodup) {p : String} (hp : p ≠ ".")
    (hmem : p ∈ keys base ∨ p ∈ keys target) :
    (walkPaths base target).countP (fun q => decide (q = p)) = 1 := by
  rw [walkPaths, List.countP_cons, List.countP_append]
  have hdot : (decide (("." : String) = p)) = false := by
    simpa using fun h => hp h.symm
  by_cases hpb : p ∈ keys base
  · have h1 : (keys base).countP (fun q => decide (q = p)) = 1 := countP_nodup_mem hb hpb
    have h2 : ((keys target).filter (fun p => decide (p ∉ keys base))).countP
        (fun q => decide (q = p)) = 0 := by
      refine countP_not_mem (fun hmemf => ?_)
      have := (List.mem_filter.mp hmemf).2
      exact (of_decide_eq_true this) hpb
    simp only [h1, h2, hdot, Bool.false_eq_true, if_false]
  · have h1 : (keys base).countP (fun q => decide (q = p)) = 0 := countP_not_mem hpb
    have hpt : p ∈ keys target := hmem.resolve_left hpb
    have h2 : ((keys target).filter (fun p => decide (p ∉ keys base))).countP
        (fun q => decide (q = p)) = 1 := by
      refine countP_nodup_mem (ht.filter _) ?_
      exact List.mem_filter.mpr ⟨hpt, by simpa using hpb⟩
    simp only [h1, h2, hdot, Bool.false_eq_true, if_false]

/-- No path is visited more than once by the modelled walk. -/
theorem countP_walkPaths_le (base target : Snapshot) (hb : (keys base).Nodup)
    (ht : (keys target).Nodup) {p : String} (hp : p ≠ ".") :
    (walkPaths base target).countP (fun q => decide (q = p)) ≤ 1 := by
  rw [walkPaths, List.countP_cons, List.countP_append]
  have hdot : (decide (("." : String) = p)) = false := by
    simpa using fun h => hp h.symm
  by_cases hpb : p ∈ keys base
  · have h2 : ((keys target).filter (fun p => decide (p ∉ keys base))).countP
        (fun q => decide (q = p)) = 0 := by
      refine countP_not_mem (fun hmemf => ?_)
      have := (List.mem_filter.mp hmemf).2
      exact (of_decide_eq_true this) hpb
    simp only [h2, hdot, Bool.false_eq_true, if_false]
    simpa using countP_nodup_le hb p
  · have h1 : (keys base).countP (fun q => decide (q = p)) = 0 := countP_not_mem hpb
    simp only [h1, hdot, Bool.false_eq_true, if_false]
    simpa using countP_nodup_le (ht.filter (fun p => decide (p ∉ keys base))) p

theorem getChangedFiles_countP (base target : Snapshot) (p : String) :
    (getChangedFiles base target).countP (fun r => decide (r.path = p)) =
      (walkPaths base target).countP (fun q => decide (q = p)) *
        (match mapEntry base target p with | some _ => 1 | none => 0) :=
  countP_path_filterMap _ _ (fun q r h => (mapEntry_some h).1) p

theorem mem_walkPaths {base target : Snapshot} {p : String}
    (hmem : p ∈ keys base ∨ p ∈ keys target) : p ∈ walkPaths base target := by
  rw [walkPaths]
  refine List.mem_cons_of_mem _ ?_
  by_cases hpb : p ∈ keys base
  · exact List.mem_append_left _ hpb
  · exact List.mem_append_right _
      (List.mem_filter.mpr ⟨hmem.resolve_left hpb, by simpa using hpb⟩)

theorem mem_getChangedFiles {base target : Snapshot} {p : String} {r : FileDiff}
    (hq : mapEntry base target p = some r)
    (hmem : p ∈ keys base ∨ p ∈ keys target) :
    r ∈ getChangedFiles base target :=
  List.mem_filterMap.mpr ⟨p, mem_walkPaths hmem, hq⟩

/-! ## Claim C2: tree diff completeness -/

/-- C2: over snapshots with duplicate-free paths, a blob path present on
exactly one side appears exactly once, with status Deleted (only in base)
or Added (only in target); a blob path present on both sides appears
exactly once as Modified when the oids differ and never when they agree;
and a path that is a directory on either side never appears. -/
theorem c2_treeDiff (base target : Snapshot) (hb : (keys base).Nodup)
    (ht : (keys target).Nodup) (p : String) (hp : p ≠ ".") :
    (∀ o, entryAt base p = some ⟨EntryType.blob, o⟩ → entryAt target p = none →
      (getChangedFiles base target).countP (fun r => decide (r.path = p)) = 1 ∧
        FileDiff.mk p FileStatus.deleted ∈ getChangedFiles base target) ∧
    (∀ o, entryAt base p = none → entryAt target p = some ⟨EntryType.blob, o⟩ →
      (getChangedFiles base target).countP (fun r => decide (r.path = p)) = 1 ∧
        FileDiff.mk p FileStatus.added ∈ getChangedFiles base target) ∧
    (∀ o₁ o₂, o₁ ≠ o₂ → entryAt base p = some ⟨EntryType.blob, o₁⟩ →
      entryAt target p = some ⟨EntryType.blob, o₂⟩ →
      (getChangedFiles base target).countP (fun r => decide (r.path = p)) = 1 ∧
        FileDiff.mk p FileStatus.modified ∈ getChangedFiles base target) ∧
    (∀ o, entryAt base p = some ⟨EntryType.blob, o⟩ →
      entryAt target p = some ⟨EntryType.blob, o⟩ →
      (getChangedFiles base target).countP (fun r => decide (r.path = p)) = 0) ∧
    (((entryAt base p).map TreeEntry.etype = some EntryType.tree ∨
        (entryAt target p).map TreeEntry.etype = some EntryType.tree) →
      (getChangedFiles base target).countP (fun r => decide (r.path = p)) = 0) := by
  refine ⟨?_, ?_, ?_, ?_, ?_⟩
  · intro o h1 h2
    have hm : mapEntry base target p = some ⟨p, FileStatus.deleted⟩ := by
      simp [mapEntry, hp, h1, h2]
    have hmem : p ∈ keys base ∨ p ∈ keys target := Or.inl (lookup_mem_fst h1)
    refine ⟨?_, mem_getChangedFiles hm hmem⟩
    rw [getChangedFiles_countP, hm, countP_walkPaths base target hb ht hp hmem]
    rfl
  · intro o h1 h2
    have hm : mapEntry base target p = some ⟨p, FileStatus.added⟩ := by
      simp [mapEntry, hp, h1, h2]
    have hmem : p ∈ keys base ∨ p ∈ keys target := Or.inr (lookup_mem_fst h2)
    refine ⟨?_, mem_getChangedFiles hm hmem⟩
    rw [getChangedFiles_countP, hm, countP_walkPaths base target hb ht hp hmem]
    rfl
  · intro o₁ o₂ ho h1 h2
    have hm : mapEntry base target p = some ⟨p, FileStatus.modified⟩ := by
      simp [mapEntry, hp, h1, h2, ho]
    have hmem : p ∈ keys base ∨ p ∈ keys target := Or.inl (lookup_mem_fst h1)
    refine ⟨?_, mem_getChangedFiles hm hmem⟩
    rw [getChangedFiles_countP, hm, countP_walkPaths base target hb ht hp hmem]
    rfl
  · intro o h1 h2
    have hm : mapEntry base target p = none := by
      simp [mapEntry, hp, h1, h2]
    rw [getChangedFiles_countP, hm]
    simp
  · intro htree
    have hm : mapEntry base target p = none := by
      rw [mapEntry, if_neg hp, if_pos htree]
    rw [getChangedFiles_countP, hm]
    simp

/-- C2 witness: two one-file snapshots whose single blob differs. -/
theorem c2_treeDiff_witness :
    (getChangedFiles [("a.txt", ⟨EntryType.blob, "o1"⟩)]
        [("a.txt", ⟨EntryType.blob, "o2"⟩)]).countP
      (fun r => decide (r.path = "a.txt")) = 1 ∧
    FileDiff.mk "a.txt" FileStatus.modified ∈
      getChangedFiles [("a.txt", ⟨EntryType.blob, "o1"⟩)]
        [("a.txt", ⟨EntryType.blob, "o2"⟩)] :=
  (c2_treeDiff [("a.txt", ⟨EntryType.blob, "o1"⟩)]
      [("a.txt", ⟨EntryType.blob, "o2"⟩)] (by decide) (by decide) "a.txt"
      (by decide)).2.2.1 "o1" "o2" (by decide) rfl rfl

/-! ## Claim C10: emitted statuses and path uniqueness -/

/-- C10: every returned record has status added, modified, or deleted (the
declared `unmodified` status is never emitted), and no path occurs twice in
the returned sequence. -/
theorem c10_statuses (base target : Snapshot) (hb : (keys base).Nodup)
    (ht : (keys target).Nodup) :
    (∀ r ∈ getChangedFiles base target, r.status ≠ FileStatus.unmodified) ∧
    ∀ p : String,
      (getChangedFiles base target).countP (fun r => decide (r.path = p)) ≤ 1 := by
  constructor
  · intro r hr
    obtain ⟨q, _, hq⟩ := List.mem_filterMap.mp hr
    exact (mapEntry_some hq).2
  · intro p
    by_cases hp : p = "."
    · subst hp
      have hm : mapEntry base target "." = none := by simp [mapEntry]
      rw [getChangedFiles_countP, hm]
      simp
    · rw [getChangedFiles_countP]
      have h1 := countP_walkPaths_le base target hb ht hp
      have h2 : (match mapEntry base target p with | some _ => 1 | none => 0) ≤ 1 := by
        cases mapEntry base target p <;> simp
      simpa using Nat.mul_le_mul h1 h2

/-- C10 witness: concrete snapshots with one shared path. -/
theorem c10_statuses_witness :
    (∀ r ∈ getChangedFiles [("a.txt", ⟨EntryType.blob, "o1"⟩)]
        [("b.txt", ⟨EntryType.blob, "o2"⟩)], r.status ≠ FileStatus.unmodified) ∧
    ∀ p : String,
      (getChangedFiles [("a.txt", ⟨EntryType.blob, "o1"⟩)]
          [("b.txt", ⟨EntryType.blob, "o2"⟩)]).countP
        (fun r => decide (r.path = p)) ≤ 1 :=
  c10_statuses [("a.txt", ⟨EntryType.blob, "o1"⟩)]
    [("b.txt", ⟨EntryType.blob, "o2"⟩)] (by decide) (by decide)

/-! ## Claim C8: blob on one side, directory on the other -/

/-- C8 (counterexample): base has blob "a", target turns "a" into a
directory containing blob "a/x". The claim requires a Deleted record for
"a"; the code silently drops "a" (only "a/x" is reported Added). -/
theorem c8_blob_tree_cex :
    getChangedFiles [("a", ⟨EntryType.blob, "o1"⟩)]
        [("a", ⟨EntryType.tree, "t"⟩), ("a/x", ⟨EntryType.blob, "o2"⟩)] =
      [⟨"a/x", FileStatus.added⟩] ∧
    FileDiff.mk "a" FileStatus.deleted ∉
      getChangedFiles [("a", ⟨EntryType.blob, "o1"⟩)]
        [("a", ⟨EntryType.tree, "t"⟩), ("a/x", ⟨EntryType.blob, "o2"⟩)] := by
  decide

/-- C8 (amended): a path that is a blob in base and a directory in target
is silently skipped — no record at all is emitted for it, in particular no
Deleted record — while each blob leaf under the new directory (absent from
base) is reported Added exactly once. -/
theorem c8_blob_tree (base target : Snapshot) (hb : (keys base).Nodup)
    (ht : (keys target).Nodup) (p o e : String)
    (hbp : entryAt base p = some ⟨EntryType.blob, o⟩)
    (htp : entryAt target p = some ⟨EntryType.tree, e⟩) :
    (getChangedFiles base target).countP (fun r => decide (r.path = p)) = 0 ∧
    ∀ q o₂, q ≠ "." → entryAt base q = none →
      entryAt target q = some ⟨EntryType.blob, o₂⟩ →
      (getChangedFiles base target).countP (fun r => decide (r.path = q)) = 1 ∧
        FileDiff.mk q FileStatus.added ∈ getChangedFiles base target := by
  constructor
  · have hm : mapEntry base target p = none := by
      by_cases hp : p = "." <;> simp [mapEntry, hp, htp]
    rw [getChangedFiles_countP, hm]
    simp
  · intro q o₂ hq hbq htq
    have hm : mapEntry base target q = some ⟨q, FileStatus.added⟩ := by
      simp [mapEntry, hq, hbq, htq]
    have hmem : q ∈ keys base ∨ q ∈ keys target := Or.inr (lookup_mem_fst htq)
    refine ⟨?_, mem_getChangedFiles hm hmem⟩
    rw [getChangedFiles_countP, hm, countP_walkPaths base target hb ht hq hmem]
    rfl

/-- C8 witness: the blob→directory scenario made concrete. -/
theorem c8_blob_tree_witness :
    (getChangedFiles [("a", ⟨EntryType.blob, "o1"⟩)]
        [("a", ⟨EntryType.tree, "t"⟩), ("a/x", ⟨EntryType.blob, "o2"⟩)]).countP
      (fun r => decide (r.path = "a")) = 0 ∧
    ∀ q o₂, q ≠ "." →
      entryAt [("a", ⟨EntryType.blob, "o1"⟩)] q = none →
      entryAt [("a", ⟨EntryType.tree, "t"⟩), ("a/x", ⟨EntryType.blob, "o2"⟩)] q =
        some ⟨EntryType.blob, o₂⟩ →
      (getChangedFiles [("a", ⟨EntryType.blob, "o1"⟩)]
          [("a", ⟨EntryType.tree, "t"⟩), ("a/x", ⟨EntryType.blob, "o2"⟩)]).countP
        (fun r => decide (r.path = q)) = 1 ∧
      FileDiff.mk q FileStatus.added ∈
        getChangedFiles [("a", ⟨EntryType.blob, "o1"⟩)]
          [("a", ⟨EntryType.tree, "t"⟩), ("a/x", ⟨EntryType.blob, "o2"⟩)] :=
  c8_blob_tree [("a", ⟨EntryType.blob, "o1"⟩)]
    [("a", ⟨EntryType.tree, "t"⟩), ("a/x", ⟨EntryType.blob, "o2"⟩)]
    (by decide) (by decide) "a" "o1" "t" rfl rfl

/-! ## Claim C7: walk errors abort the diff -/

theorem walkAll_error {f : String → Except String (Option FileDiff)}
    {ps : List String} {p : String} {m : String}
    (hp : p ∈ ps) (hf : f p = Except.error m) :
    ∃ e, walkAll f ps = Except.error e := by
  induction ps with
  | nil => simp at hp
  | cons q ps ih =>
    rcases List.mem_cons.mp hp with rfl | hpl
    · exact ⟨m, by simp [walkAll, hf]⟩
    · cases hfq : f q with
      | error m' => exact ⟨m', by simp [walkAll, hfq]⟩
      | ok o =>
        obtain ⟨e, he⟩ := ih hpl
        cases o with
        | none => exact ⟨e, by simp [walkAll, hfq, he]⟩
        | some r => exact ⟨e, by simp [walkAll, hfq, he, Except.map]⟩

/-- C7 (counterexample): one unreadable entry makes the whole diff abort
with that entry's error; no partial result or warnings are produced. -/
theorem c7_treeWalk_cex :
    getChangedFilesE [("a", WalkEntry.unreadable "boom")] [] =
      Except.error "boom" := by
  rfl

/-- C7 (amended): whenever the walk meets an entry whose type or content
identity cannot be read, `getChangedFiles` throws — the entry is not
skipped and no warnings are attached to a partial result. -/
theorem c7_treeWalk (base target : FSnapshot) (p m : String) (hp : p ≠ ".")
    (hq : fentryAt base p = some (WalkEntry.unreadable m)) :
    ∃ e, getChangedFilesE base target = Except.error e := by
  have hmem : p ∈ fwalkPaths base target := by
    rw [fwalkPaths]
    exact List.mem_cons_of_mem _ (List.mem_append_left _ (lookup_mem_fst hq))
  have herr : mapEntryE base target p = Except.error m := by
    simp [mapEntryE, hp, hq, readEntry]
  obtain ⟨e, he⟩ := walkAll_error hmem herr
  refine ⟨if List.IsInfix nullSliceNeedle.toList e.toList then bigRepoMessage else e, ?_⟩
  simp [getChangedFilesE, he]

/-- C7 witness: the concrete unreadable entry. -/
theorem c7_treeWalk_witness :
    ∃ e, getChangedFilesE [("a", WalkEntry.unreadable "boom")] [] =
      Except.error e :=
  c7_treeWalk [("a", WalkEntry.unreadable "boom")] [] "a" "boom"
    (by decide) rfl

/-! ## Step lemmas for the segmenter loop -/

theorem segmentGo_nil (ctx : Nat) (cur : Hunk) (flag : Bool) :
    segmentGo ctx [] cur flag = if cur = [] then [] else [cur] := rfl

theorem segmentGo_diff (ctx : Nat) (change : Change) (rest : List Change)
    (cur : Hunk) (flag : Bool) (hd : isDiff change = true) :
    segmentGo ctx (change :: rest) cur flag =
      segmentGo ctx rest (cur ++ [change]) true := by
  simp [segmentGo, hd]

theorem segmentGo_unch_true_nil_big (ctx : Nat) (change : Change) (cur : Hunk)
    (hd : isDiff change = false) (hbig : (splitLines change.value).length > ctx) :
    segmentGo ctx [change] cur true =
      [cur ++ [mkContext ((splitLines change.value).take ctx).flatten]] := by
  simp [segmentGo, hd, hbig]

theorem segmentGo_unch_true_nil_small (ctx : Nat) (change : Change) (cur : Hunk)
    (hd : isDiff change = false) (hsmall : ¬ (splitLines change.value).length > ctx) :
    segmentGo ctx [change] cur true = [cur ++ [change]] := by
  simp [segmentGo, hd, hsmall]

theorem segmentGo_unch_true_cons_small (ctx : Nat) (change : Change)
    (rest : List Change) (cur : Hunk) (hd : isDiff change = false)
    (hne : rest ≠ []) (hgap : (splitLines change.value).length ≤ ctx * 2) :
    segmentGo ctx (change :: rest) cur true =
      segmentGo ctx rest (cur ++ [change]) false := by
  simp [segmentGo, hd, hne, hgap]

theorem segmentGo_unch_true_cons_big (ctx : Nat) (change : Change)
    (rest : List Change) (cur : Hunk) (hd : isDiff change = false)
    (hne : rest ≠ []) (hgap : ¬ (splitLines change.value).length ≤ ctx * 2) :
    segmentGo ctx (change :: rest) cur true =
      (cur ++ [mkContext ((splitLines change.value).take ctx).flatten]) ::
        segmentGo ctx rest
          [mkContext (((splitLines change.value).drop
            ((splitLines change.value).length - ctx)).flatten)] false := by
  simp [segmentGo, hd, hne, hgap]

theorem segmentGo_unch_false_big (ctx : Nat) (change : Change)
    (rest : List Change) (cur : Hunk) (hd : isDiff change = false)
    (hbig : (splitLines change.value).length > ctx) :
    segmentGo ctx (change :: rest) cur false =
      segmentGo ctx rest
        (cur ++ [mkContext (((splitLines change.value).drop
          ((splitLines change.value).length - ctx)).flatten)]) false := by
  simp [segmentGo, hd, hbig]

theorem segmentGo_unch_false_small (ctx : Nat) (change : Change)
    (rest : List Change) (cur : Hunk) (hd : isDiff change = false)
    (hsmall : ¬ (splitLines change.value).length > ctx) :
    segmentGo ctx (change :: rest) cur false =
      segmentGo ctx rest (cur ++ [change]) false := by
  simp [segmentGo, hd, hsmall]

/-! ## Line counts of synthesized context runs -/

theorem lineCount_take (v : Text) (k : Nat) :
    lineCount (mkContext ((splitLines v).take k).flatten) =
      min k (splitLines v).length := by
  have hv : (mkContext ((splitLines v).take k).flatten).value =
      ((splitLines v).take k).flatten := rfl
  rw [lineCount, hv,
    splitLines_flatten (fun l hl => splitLines_proper v l (List.mem_of_mem_take hl)),
    List.length_take]

theorem lineCount_drop (v : Text) (k : Nat) :
    lineCount (mkContext ((splitLines v).drop k).flatten) =
      (splitLines v).length - k := by
  have hv : (mkContext ((splitLines v).drop k).flatten).value =
      ((splitLines v).drop k).flatten := rfl
  rw [lineCount, hv,
    splitLines_flatten (fun l hl => splitLines_proper v l (List.mem_of_mem_drop hl)),
    List.length_drop]

/-- Lifting a head-position property over appending one run at the end. -/
theorem headProp_append {P : Change → Prop} {cur : Hunk} {x : Change}
    (hcur : ∀ c, cur.head? = some c → P c) (hx : P x) :
    ∀ c, (cur ++ [x]).head? = some c → P c := by
  cases cur with
  | nil =>
    intro c hc
    simp at hc
    exact hc ▸ hx
  | cons a l =>
    intro c hc
    simp at hc
    exact hc ▸ hcur a rfl

/-! ## Claim C5: context bounds inside emitted hunks -/

/-- Loop invariant for the context bound: interior unchanged runs of the
accumulating hunk stay within `ctx * 2` lines, its leading run within
`ctx`, the run that will end up trailing within `ctx`, and every emitted
hunk satisfies all three bounds. -/
theorem segmentGo_ctxBound (ctx : Nat) (changes : List Change) :
    ∀ (cur : Hunk) (flag : Bool),
      (∀ c ∈ cur, isDiff c = false → lineCount c ≤ ctx * 2) →
      (∀ c, cur.head? = some c → isDiff c = false → lineCount c ≤ ctx) →
      (flag = false → changes = [] →
        ∀ c, cur.getLast? = some c → isDiff c = false → lineCount c ≤ ctx) →
      (flag = true → ∃ d, cur.getLast? = some d ∧ isDiff d = true) →
      ∀ h ∈ segmentGo ctx changes cur flag,
        (∀ c ∈ h, isDiff c = false → lineCount c ≤ ctx * 2) ∧
        (∀ c, h.head? = some c → isDiff c = false → lineCount c ≤ ctx) ∧
        (∀ c, h.getLast? = some c → isDiff c = false → lineCount c ≤ ctx) := by
  induction changes with
  | nil =>
    intro cur flag h1 h2 h3 h4 h hh
    rw [segmentGo_nil] at hh
    split at hh
    · simp at hh
    · simp only [List.mem_singleton] at hh
      subst hh
      refine ⟨h1, h2, ?_⟩
      cases flag with
      | false => exact h3 rfl rfl
      | true =>
        intro c hc hcd
        obtain ⟨d, hd1, hd2⟩ := h4 rfl
        rw [hd1] at hc
        injection hc with hc
        rw [← hc] at hcd
        rw [hd2] at hcd
        cases hcd
  | cons change rest ih =>
    intro cur flag h1 h2 h3 h4 h hh
    cases hdiff : isDiff change with
    | true =>
      rw [segmentGo_diff ctx change rest cur flag hdiff] at hh
      refine ih _ _ ?_ ?_ ?_ ?_ h hh
      · intro c hc hcd
        rcases List.mem_append.mp hc with hc | hc
        · exact h1 c hc hcd
        · simp only [List.mem_singleton] at hc
          subst hc
          rw [hdiff] at hcd
          cases hcd
      · exact headProp_append h2
          (fun hcd => by rw [hdiff] at hcd; cases hcd)
      · intro hf
        exact absurd hf (by simp)
      · intro _
        exact ⟨change, List.getLast?_concat _, hdiff⟩
    | false =>
      cases flag with
      | true =>
        obtain ⟨d, hd1, hd2⟩ := h4 rfl
        have hcne : cur ≠ [] := by
          intro hc
          rw [hc] at hd1
          simp at hd1
        by_cases hre : rest = []
        · subst hre
          by_cases hbig : (splitLines change.value).length > ctx
          · rw [segmentGo_unch_true_nil_big ctx change cur hdiff hbig] at hh
            simp only [List.mem_singleton] at hh
            subst hh
            refine ⟨?_, ?_, ?_⟩
            · intro c hc hcd
              rcases List.mem_append.mp hc with hc | hc
              · exact h1 c hc hcd
              · simp only [List.mem_singleton] at hc
                subst hc
                rw [lineCount_take]
                exact le_trans (Nat.min_le_left _ _) (by omega)
            · exact headProp_append h2
                (fun _ => by rw [lineCount_take]; exact Nat.min_le_left _ _)
            · intro c hc hcd
              rw [List.getLast?_concat] at hc
              injection hc with hc
              rw [← hc, lineCount_take]
              exact Nat.min_le_left _ _
          · rw [segmentGo_unch_true_nil_small ctx change cur hdiff hbig] at hh
            simp only [List.mem_singleton] at hh
            subst hh
            have hlen : lineCount change ≤ ctx := by rw [lineCount]; omega
            refine ⟨?_, headProp_append h2 (fun _ => hlen), ?_⟩
            · intro c hc hcd
              rcases List.mem_append.mp hc with hc | hc
              · exact h1 c hc hcd
              · simp only [List.mem_singleton] at hc
                subst hc
                omega
            · intro c hc hcd
              rw [List.getLast?_concat] at hc
              injection hc with hc
              rw [← hc]
              exact hlen
        · by_cases hgap : (splitLines change.value).length ≤ ctx * 2
          · rw [segmentGo_unch_true_cons_small ctx change rest cur hdiff hre hgap] at hh
            refine ih _ _ ?_ ?_ ?_ ?_ h hh
            · intro c hc hcd
              rcases List.mem_append.mp hc with hc | hc
              · exact h1 c hc hcd
              · simp only [List.mem_singleton] at hc
                subst hc
                rw [lineCount]
                exact hgap
            · intro c hc hcd
              cases cur with
              | nil => exact absurd rfl hcne
              | cons a l =>
                simp at hc
                subst hc
                exact h2 a rfl hcd
            · intro _ hrest
              exact absurd hrest hre
            · intro hf
              exact absurd hf (by simp)
          · rw [segmentGo_unch_true_cons_big ctx change rest cur hdiff hre hgap] at hh
            rcases List.mem_cons.mp hh with rfl | hh
            · refine ⟨?_, ?_, ?_⟩
              · intro c hc hcd
                rcases List.mem_append.mp hc with hc | hc
                · exact h1 c hc hcd
                · simp only [List.mem_singleton] at hc
                  subst hc
                  rw [lineCount_take]
                  exact le_trans (Nat.min_le_left _ _) (by omega)
              · exact headProp_append h2
                  (fun _ => by rw [lineCount_take]; exact Nat.min_le_left _ _)
              · intro c hc hcd
                rw [List.getLast?_concat] at hc
                injection hc with hc
                rw [← hc, lineCount_take]
                exact Nat.min_le_left _ _
            · refine ih _ _ ?_ ?_ ?_ ?_ h hh
              · intro c hc hcd
                simp only [List.mem_singleton] at hc
                subst hc
                rw [lineCount_drop]
                omega
              · intro c hc hcd
                simp only [List.head?_cons] at hc
                injection hc with hc
                rw [← hc, lineCount_drop]
                omega
              · intro _ hrest
                exact absurd hrest hre
              · intro hf
                exact absurd hf (by simp)
      | false =>
        by_cases hbig : (splitLines change.value).length > ctx
        · rw [segmentGo_unch_false_big ctx change rest cur hdiff hbig] at hh
          refine ih _ _ ?_ ?_ ?_ ?_ h hh
          · intro c hc hcd
            rcases List.mem_append.mp hc with hc | hc
            · exact h1 c hc hcd
            · simp only [List.mem_singleton] at hc
              subst hc
              rw [lineCount_drop]
              omega
          · exact headProp_append h2
              (fun _ => by rw [lineCount_drop]; omega)
          · intro _ hrest c hc hcd
            rw [List.getLast?_concat] at hc
            injection hc with hc
            rw [← hc, lineCount_drop]
            omega
          · intro hf
            exact absurd hf (by simp)
        · rw [segmentGo_unch_false_small ctx change rest cur hdiff hbig] at hh
          have hlen : lineCount change ≤ ctx := by rw [lineCount]; omega
          refine ih _ _ ?_ ?_ ?_ ?_ h hh
          · intro c hc hcd
            rcases List.mem_append.mp hc with hc | hc
            · exact h1 c hc hcd
            · simp only [List.mem_singleton] at hc
              subst hc
              omega
          · exact headProp_append h2 (fun _ => hlen)
          · intro _ hrest c hc hcd
            rw [List.getLast?_concat] at hc
            injection hc with hc
            rw [← hc]
            exact hlen
          · intro hf
            exact absurd hf (by simp)

/-- C5: in every emitted hunk, no unchanged run exceeds `2 × contextSize`
lines (the merge-absorbed connective runs included), and the leading and
trailing runs of a hunk, when unchanged, never exceed `contextSize`
lines. -/
theorem c5_context_bound (ctx : Nat) (changes : List Change) :
    ∀ h ∈ segment ctx changes,
      (∀ c ∈ h, isDiff c = false → lineCount c ≤ ctx * 2) ∧
      (∀ c, h.head? = some c → isDiff c = false → lineCount c ≤ ctx) ∧
      (∀ c, h.getLast? = some c → isDiff c = false → lineCount c ≤ ctx) :=
  segmentGo_ctxBound ctx changes [] false
    (by intro c hc; simp at hc)
    (by intro c hc; simp at hc)
    (by intro _ _ c hc; simp at hc)
    (by intro hf; exact absurd hf (by simp))

/-- C5 witness: concrete instance — a one-run removed script at context
size 3. -/
theorem c5_context_bound_witness :
    (∀ c ∈ [Change.mk ['x', '\n'] true false], isDiff c = false → lineCount c ≤ 3 * 2) ∧
    (∀ c, [Change.mk ['x', '\n'] true false].head? = some c →
      isDiff c = false → lineCount c ≤ 3) ∧
    (∀ c, [Change.mk ['x', '\n'] true false].getLast? = some c →
      isDiff c = false → lineCount c ≤ 3) :=
  c5_context_bound 3 [Change.mk ['x', '\n'] true false]
    [Change.mk ['x', '\n'] true false] (by decide)

/-! ## Claim C4: the gap rule -/

/-- Processing a non-empty block of changed runs appends the whole block to
the current hunk and sets the flag. -/
theorem segmentGo_diffBlock (ctx : Nat) :
    ∀ (D : List Change), (∀ c ∈ D, isDiff c = true) → D ≠ [] →
      ∀ (rest : List Change) (cur : Hunk) (flag : Bool),
        segmentGo ctx (D ++ rest) cur flag =
          segmentGo ctx rest (cur ++ D) true := by
  intro D
  induction D with
  | nil =>
    intro _ hne
    exact absurd rfl hne
  | cons d D ihD =>
    intro hD _ rest cur flag
    rw [List.cons_append, segmentGo_diff ctx d (D ++ rest) cur flag (hD d (by simp))]
    by_cases hD0 : D = []
    · subst hD0
      simp
    · rw [ihD (fun c hc => hD c (by simp [hc])) hD0 rest (cur ++ [d]) true,
        List.append_assoc, List.singleton_append]

/-- C4: in a script with exactly two changed regions (maximal blocks of
changed runs) separated by one unchanged run `u` and with optional
unchanged runs before and after, the two regions are emitted as two
distinct hunks (with the gap divider shown before the second) exactly when
`u` has strictly more than `2 × contextSize` lines; otherwise they are
emitted as one merged hunk that contains the entire run `u`. -/
theorem c4_gap_rule (ctx : Nat) (lead D₁ D₂ trail : List Change) (u : Change)
    (hlead : lead = [] ∨ ∃ u₀, lead = [u₀] ∧ isDiff u₀ = false)
    (hD₁ : ∀ c ∈ D₁, isDiff c = true) (hD₁n : D₁ ≠ [])
    (hD₂ : ∀ c ∈ D₂, isDiff c = true) (hD₂n : D₂ ≠ [])
    (hu : isDiff u = false)
    (htrail : trail = [] ∨ ∃ u₃, trail = [u₃] ∧ isDiff u₃ = false) :
    ((splitLines u.value).length > ctx * 2 →
      (segment ctx (lead ++ D₁ ++ [u] ++ D₂ ++ trail)).length = 2 ∧
        showsGapDivider 1 = true) ∧
    ((splitLines u.value).length ≤ ctx * 2 →
      ∃ h, segment ctx (lead ++ D₁ ++ [u] ++ D₂ ++ trail) = [h] ∧ u ∈ h) := by
  have hrestne : [u] ++ (D₂ ++ trail) ≠ [] := by simp
  have hD₂trail : D₂ ++ trail ≠ [] := by
    intro h
    exact hD₂n (List.append_eq_nil.mp h).1
  obtain ⟨cur₀, hstep⟩ :
      ∃ cur₀, segment ctx (lead ++ D₁ ++ [u] ++ D₂ ++ trail) =
        segmentGo ctx (D₁ ++ ([u] ++ (D₂ ++ trail))) cur₀ false := by
    rcases hlead with rfl | ⟨u₀, rfl, hu₀⟩
    · exact ⟨[], by simp [segment, List.append_assoc]⟩
    · have hshape : ([u₀] ++ D₁ ++ [u] ++ D₂ ++ trail) =
          u₀ :: (D₁ ++ ([u] ++ (D₂ ++ trail))) := by
        simp [List.append_assoc]
      by_cases hbig : (splitLines u₀.value).length > ctx
      · refine ⟨[mkContext (((splitLines u₀.value).drop
          ((splitLines u₀.value).length - ctx)).flatten)], ?_⟩
        rw [segment, hshape, segmentGo_unch_false_big ctx u₀ _ [] hu₀ hbig,
          List.nil_append]
      · refine ⟨[u₀], ?_⟩
        rw [segment, hshape, segmentGo_unch_false_small ctx u₀ _ [] hu₀ hbig,
          List.nil_append]
  rw [hstep, segmentGo_diffBlock ctx D₁ hD₁ hD₁n _ cur₀ false,
    List.singleton_append]
  constructor
  · intro hbig
    rw [segmentGo_unch_true_cons_big ctx u (D₂ ++ trail) (cur₀ ++ D₁) hu hD₂trail
      (by omega)]
    rw [segmentGo_diffBlock ctx D₂ hD₂ hD₂n trail _ false]
    rcases htrail with rfl | ⟨u₃, rfl, hu₃⟩
    · rw [segmentGo_nil, if_neg (by simp)]
      exact ⟨rfl, rfl⟩
    · by_cases hbig₃ : (splitLines u₃.value).length > ctx
      · rw [segmentGo_unch_true_nil_big ctx u₃ _ hu₃ hbig₃]
        exact ⟨rfl, rfl⟩
      · rw [segmentGo_unch_true_nil_small ctx u₃ _ hu₃ hbig₃]
        exact ⟨rfl, rfl⟩
  · intro hgap
    rw [segmentGo_unch_true_cons_small ctx u (D₂ ++ trail) (cur₀ ++ D₁) hu hD₂trail
      hgap]
    rw [segmentGo_diffBlock ctx D₂ hD₂ hD₂n trail _ false]
    rcases htrail with rfl | ⟨u₃, rfl, hu₃⟩
    · rw [segmentGo_nil, if_neg (by simp [hD₂n])]
      exact ⟨_, rfl, by simp⟩
    · by_cases hbig₃ : (splitLines u₃.value).length > ctx
      · rw [segmentGo_unch_true_nil_big ctx u₃ _ hu₃ hbig₃]
        exact ⟨_, rfl, by simp⟩
      · rw [segmentGo_unch_true_nil_small ctx u₃ _ hu₃ hbig₃]
        exact ⟨_, rfl, by simp⟩

/-- C4 witness: one removed line, seven unchanged lines, one added line at
context size 3: the gap of 7 exceeds 2 × 3, giving two hunks; and the same
at gap 1 merges (instantiated separately through the two implications). -/
theorem c4_gap_rule_witness :
    ((splitLines (Change.mk
        ['a', '\n', 'b', '\n', 'c', '\n', 'd', '\n', 'e', '\n', 'f', '\n', 'g', '\n']
        false false).value).length > 3 * 2 →
      (segment 3 ([] ++ [Change.mk ['x', '\n'] false true] ++
          [Change.mk ['a', '\n', 'b', '\n', 'c', '\n', 'd', '\n', 'e', '\n', 'f', '\n', 'g', '\n'] false false] ++
          [Change.mk ['y', '\n'] true false] ++ [])).length = 2 ∧
        showsGapDivider 1 = true) ∧
    ((splitLines (Change.mk
        ['a', '\n', 'b', '\n', 'c', '\n', 'd', '\n', 'e', '\n', 'f', '\n', 'g', '\n']
        false false).value).length ≤ 3 * 2 →
      ∃ h, segment 3 ([] ++ [Change.mk ['x', '\n'] false true] ++
          [Change.mk ['a', '\n', 'b', '\n', 'c', '\n', 'd', '\n', 'e', '\n', 'f', '\n', 'g', '\n'] false false] ++
          [Change.mk ['y', '\n'] true false] ++ []) = [h] ∧
        Change.mk ['a', '\n', 'b', '\n', 'c', '\n', 'd', '\n', 'e', '\n', 'f', '\n', 'g', '\n'] false false ∈ h) :=
  c4_gap_rule 3 [] [Change.mk ['x', '\n'] false true]
    [Change.mk ['y', '\n'] true false] []
    (Change.mk ['a', '\n', 'b', '\n', 'c', '\n', 'd', '\n', 'e', '\n', 'f', '\n', 'g', '\n'] false false)
    (Or.inl rfl)
    (by intro c hc; simp at hc; subst hc; rfl) (by simp)
    (by intro c hc; simp at hc; subst hc; rfl) (by simp)
    rfl (Or.inl rfl)

/-! ## Side texts and reconstruction helpers -/

theorem sideText_append (keep : Change → Bool) (a b : List Change) :
    sideText keep (a ++ b) = sideText keep a ++ sideText keep b := by
  simp [sideText, List.filter_append]

theorem sideText_single (keep : Change → Bool) (c : Change) :
    sideText keep [c] = if keep c = true then c.value else [] := by
  by_cases h : keep c = true <;> simp [sideText, List.filter_cons, h]

theorem sideText_cons (keep : Change → Bool) (c : Change) (rest : List Change) :
    sideText keep (c :: rest) =
      (if keep c = true then c.value else []) ++ sideText keep rest := by
  rw [show (c :: rest) = [c] ++ rest from rfl, sideText_append, sideText_single]

theorem dropLast_cons_subset (c : Change) (rest : List Change) :
    rest.dropLast ⊆ (c :: rest).dropLast := by
  cases rest with
  | nil => simp
  | cons r rs =>
    intro x hx
    rw [List.dropLast_cons₂]
    exact List.mem_cons_of_mem _ hx

theorem getLast?_cons_ne (c : Change) {rest : List Change} (h : rest ≠ []) :
    (c :: rest).getLast? = rest.getLast? := by
  cases rest with
  | nil => exact absurd rfl h
  | cons r rs => exact List.getLast?_cons_cons

/-- A fully terminated text is the concatenation of its `splitLines`. -/
theorem lineated_eq_flatten {v : Text} (h : Lineated v) :
    v = (splitLines v).flatten := by
  obtain ⟨ls, hls, rfl⟩ := h
  rw [splitLines_flatten hls]

/-- Taking strictly fewer lines than a loosely terminated text has yields a
prefix of the text. -/
theorem loose_take_prefix {v : Text} (h : LooseLineated v) {k : Nat}
    (hk : k < (splitLines v).length) :
    ∃ r : Text, v = ((splitLines v).take k).flatten ++ r := by
  obtain ⟨ls, t, hls, ht, rfl⟩ := h
  rw [splitLines_flatten_append hls ht] at hk ⊢
  by_cases htt : t = []
  · subst htt
    rw [if_pos rfl] at hk ⊢
    simp only [List.append_nil] at hk ⊢
    exact ⟨(ls.drop k).flatten, by rw [← List.flatten_append, List.take_append_drop]⟩
  · simp only [if_neg htt] at hk ⊢
    have hkle : k ≤ ls.length := by
      have := hk
      simp only [List.length_append, List.length_singleton] at this
      omega
    rw [List.take_append_of_le_length hkle]
    refine ⟨(ls.drop k).flatten ++ t, ?_⟩
    rw [← List.append_assoc, ← List.flatten_append, List.take_append_drop]

/-- A fully terminated text splits into leading context, elided middle, and
trailing context along its lines. -/
theorem lineated_split_three {v : Text} (h : Lineated v) {ctx : Nat}
    (hbig : ctx * 2 < (splitLines v).length) :
    v = ((splitLines v).take ctx).flatten ++
        ((((splitLines v).take ((splitLines v).length - ctx)).drop ctx).flatten ++
          ((splitLines v).drop ((splitLines v).length - ctx)).flatten) := by
  have hsplit2 : ∀ (A : List Text) (k : Nat),
      A.flatten = (A.take k).flatten ++ (A.drop k).flatten := by
    intro A k
    rw [← List.flatten_append, List.take_append_drop]
  have h3 : ((splitLines v).take ((splitLines v).length - ctx)).take ctx =
      (splitLines v).take ctx := by
    rw [List.take_take]
    congr 1
    omega
  calc v = (splitLines v).flatten := lineated_eq_flatten h
    _ = ((splitLines v).take ((splitLines v).length - ctx)).flatten ++
        ((splitLines v).drop ((splitLines v).length - ctx)).flatten :=
          hsplit2 _ _
    _ = _ := by
          rw [hsplit2 ((splitLines v).take ((splitLines v).length - ctx)) ctx,
            h3, List.append_assoc]

theorem altOk_tail {c : Change} {rest : List Change} (h : altOk (c :: rest)) :
    altOk rest :=
  (List.chain'_cons'.mp h).2

theorem altOk_next {c : Change} {rest : List Change} (h : altOk (c :: rest))
    (hd : isDiff c = false) :
    ∀ r, rest.head? = some r → isDiff r = true := by
  intro r hr
  rcases (List.chain'_cons'.mp h).1 r hr with h' | h'
  · rw [hd] at h'
    cases h'
  · exact h'

theorem sideText_nil (keep : Change → Bool) : sideText keep [] = [] := rfl

theorem sideText_snoc (keep : Change → Bool) (cur : Hunk) (c : Change)
    (rest : List Change) :
    sideText keep cur ++ sideText keep (c :: rest) =
      sideText keep (cur ++ [c]) ++ sideText keep rest := by
  rw [sideText_cons, ← sideText_single keep c, ← List.append_assoc, ← sideText_append]

/-- A fully terminated text splits into its first `k` lines and the rest. -/
theorem lineated_split_two {v : Text} (h : Lineated v) (k : Nat) :
    v = ((splitLines v).take k).flatten ++ ((splitLines v).drop k).flatten := by
  conv_lhs => rw [lineated_eq_flatten h]
  rw [← List.flatten_append, List.take_append_drop]

/-! ## Claim C1: reconstruction -/

/-- Loop invariant for reconstruction: the side text accumulated in the
current hunk followed by the remaining script's side text is reproduced by
the emitted hunks' side texts once the elided gap texts are interleaved. -/
theorem segmentGo_reconstructs (ctx : Nat) (keep : Change → Bool)
    (hkeep : ∀ c, isDiff c = false → keep c = true) :
    ∀ (changes : List Change) (cur : Hunk) (flag : Bool),
      altOk changes →
      (∀ c ∈ changes.dropLast, isDiff c = false → Lineated c.value) →
      (∀ c, changes.getLast? = some c → isDiff c = false → LooseLineated c.value) →
      (flag = false → cur = [] ∨ ∀ c, changes.head? = some c → isDiff c = true) →
      (flag = true → cur ≠ []) →
      (cur = [] → (∃ d ∈ changes, isDiff d = true) ∨
        (∀ c ∈ changes, isDiff c = false → Lineated c.value)) →
      ∃ gaps : List Text, ∃ tailGap : Text,
        gaps.length = (segmentGo ctx changes cur flag).length ∧
        sideText keep cur ++ sideText keep changes =
          (List.zipWith (fun g h => g ++ sideText keep h) gaps
            (segmentGo ctx changes cur flag)).flatten ++ tailGap ∧
        (cur ≠ [] → ∃ h hs gs, segmentGo ctx changes cur flag = h :: hs ∧
          gaps = [] :: gs) := by
  have hkm : ∀ v : Text, keep (mkContext v) = true := fun v => hkeep (mkContext v) rfl
  have hkmc : ∀ v : Text, keep ⟨v, false, false⟩ = true := hkm
  intro changes
  induction changes with
  | nil =>
    intro cur flag _ _ _ _ _ _
    rw [segmentGo_nil]
    by_cases hc : cur = []
    · subst hc
      rw [if_pos rfl]
      exact ⟨[], [], by simp, by simp [sideText_nil], by simp⟩
    · rw [if_neg hc]
      refine ⟨[[]], [], by simp, ?_, fun _ => ⟨cur, [], [], rfl, rfl⟩⟩
      simp [sideText_nil]
  | cons change rest ih =>
    intro cur flag halt hlin hlast hp hiv hstart
    have halt' : altOk rest := altOk_tail halt
    have hlin' : ∀ c ∈ rest.dropLast, isDiff c = false → Lineated c.value :=
      fun c hc => hlin c (dropLast_cons_subset change rest hc)
    have hlast' : ∀ c, rest.getLast? = some c → isDiff c = false →
        LooseLineated c.value := by
      intro c hc
      refine hlast c ?_
      cases rest with
      | nil => simp at hc
      | cons r rs => rw [List.getLast?_cons_cons]; exact hc
    cases hdiff : isDiff change with
    | true =>
      rw [segmentGo_diff ctx change rest cur flag hdiff]
      obtain ⟨gaps', tail', hlen', heq', hcond'⟩ :=
        ih (cur ++ [change]) true halt' hlin' hlast'
          (fun h => absurd h (by simp))
          (fun _ => by simp)
          (fun h => absurd h (by simp))
      refine ⟨gaps', tail', hlen', ?_, fun _ => hcond' (by simp)⟩
      rw [sideText_snoc keep cur change rest]
      exact heq'
    | false =>
      have hnext : ∀ r, rest.head? = some r → isDiff r = true :=
        altOk_next halt hdiff
      cases flag with
      | true =>
        have hcne : cur ≠ [] := hiv rfl
        by_cases hre : rest = []
        · subst hre
          have hloose : LooseLineated change.value := hlast change (by simp) hdiff
          by_cases hbig : (splitLines change.value).length > ctx
          · rw [segmentGo_unch_true_nil_big ctx change cur hdiff hbig]
            obtain ⟨r, hr⟩ := loose_take_prefix hloose hbig
            refine ⟨[[]], r, by simp, ?_, fun _ => ⟨_, [], [], rfl, rfl⟩⟩
            rw [sideText_cons keep change [], if_pos (hkeep change hdiff)]
            conv_lhs => rw [hr]
            simp [sideText_append, sideText_single, sideText_nil, hkm, hkmc,
              List.append_assoc, mkContext]
          · rw [segmentGo_unch_true_nil_small ctx change cur hdiff hbig]
            refine ⟨[[]], [], by simp, ?_, fun _ => ⟨_, [], [], rfl, rfl⟩⟩
            rw [sideText_snoc keep cur change []]
            simp [sideText_nil]
        · by_cases hgap : (splitLines change.value).length ≤ ctx * 2
          · rw [segmentGo_unch_true_cons_small ctx change rest cur hdiff hre hgap]
            obtain ⟨gaps', tail', hlen', heq', hcond'⟩ :=
              ih (cur ++ [change]) false halt' hlin' hlast'
                (fun _ => Or.inr hnext)
                (fun h => absurd h (by simp))
                (fun h => absurd h (by simp))
            refine ⟨gaps', tail', hlen', ?_, fun _ => hcond' (by simp)⟩
            rw [sideText_snoc keep cur change rest]
            exact heq'
          · rw [segmentGo_unch_true_cons_big ctx change rest cur hdiff hre hgap]
            have hlinC : Lineated change.value := by
              refine hlin change ?_ hdiff
              cases rest with
              | nil => exact absurd rfl hre
              | cons r rs =>
                rw [List.dropLast_cons₂]
                exact List.mem_cons_self _ _
            have hsplit3 := @lineated_split_three change.value hlinC ctx (by omega)
            obtain ⟨gaps', tail', hlen', heq', hcond'⟩ :=
              ih [mkContext (((splitLines change.value).drop
                  ((splitLines change.value).length - ctx)).flatten)] false
                halt' hlin' hlast'
                (fun _ => Or.inr hnext)
                (fun h => absurd h (by simp))
                (fun h => absurd h (by simp))
            obtain ⟨h', hs', gs', hR', hg'⟩ := hcond' (by simp)
            rw [hR', hg'] at hlen' heq'
            refine ⟨[] :: ((((splitLines change.value).take
                ((splitLines change.value).length - ctx)).drop ctx).flatten :: gs'),
              tail', ?_, ?_, fun _ => ⟨_, _, _, rfl, rfl⟩⟩
            · rw [hR']
              simpa using hlen'
            · rw [hR']
              rw [sideText_cons keep change rest, if_pos (hkeep change hdiff)]
              conv_lhs => rw [hsplit3]
              have heq'' : (((splitLines change.value).drop
                  ((splitLines change.value).length - ctx)).flatten) ++
                    sideText keep rest =
                  sideText keep h' ++
                    ((List.zipWith (fun g h => g ++ sideText keep h) gs' hs').flatten
                      ++ tail') := by
                have h0 := heq'
                rw [sideText_single keep (mkContext _), if_pos (hkm _)] at h0
                simpa [List.append_assoc] using h0
              simp only [List.zipWith_cons_cons, List.flatten_cons,
                List.nil_append, sideText_append, sideText_single, hkm, if_pos,
                List.append_assoc]
              rw [heq'']
              rfl
      | false =>
        have hcur0 : cur = [] := by
          rcases hp rfl with h | h
          · exact h
          · have := h change rfl
            rw [hdiff] at this
            cases this
        subst hcur0
        by_cases hbig : (splitLines change.value).length > ctx
        · have hlinC : Lineated change.value := by
            by_cases hre : rest = []
            · subst hre
              rcases hstart rfl with ⟨d, hd, hdd⟩ | hAll
              · simp only [List.mem_singleton] at hd
                subst hd
                rw [hdiff] at hdd
                cases hdd
              · exact hAll change (by simp) hdiff
            · refine hlin change ?_ hdiff
              cases rest with
              | nil => exact absurd rfl hre
              | cons r rs =>
                rw [List.dropLast_cons₂]
                exact List.mem_cons_self _ _
          rw [segmentGo_unch_false_big ctx change rest [] hdiff hbig,
            List.nil_append]
          have hv := lineated_split_two hlinC
            ((splitLines change.value).length - ctx)
          obtain ⟨gaps', tail', hlen', heq', hcond'⟩ :=
            ih [mkContext (((splitLines change.value).drop
                ((splitLines change.value).length - ctx)).flatten)] false
              halt' hlin' hlast'
              (fun _ => Or.inr hnext)
              (fun h => absurd h (by simp))
              (fun h => absurd h (by simp))
          obtain ⟨h', hs', gs', hR', hg'⟩ := hcond' (by simp)
          rw [hR', hg'] at hlen' heq'
          refine ⟨(((splitLines change.value).take
              ((splitLines change.value).length - ctx)).flatten) :: gs',
            tail', ?_, ?_, fun hfalse => absurd rfl hfalse⟩
          · rw [hR']
            simpa using hlen'
          · rw [hR']
            rw [sideText_nil, List.nil_append,
              sideText_cons keep change rest, if_pos (hkeep change hdiff)]
            conv_lhs => rw [hv]
            have heq'' : (((splitLines change.value).drop
                ((splitLines change.value).length - ctx)).flatten) ++
                  sideText keep rest =
                sideText keep h' ++
                  ((List.zipWith (fun g h => g ++ sideText keep h) gs' hs').flatten
                    ++ tail') := by
              have h0 := heq'
              rw [sideText_single keep (mkContext _), if_pos (hkm _)] at h0
              simpa [List.append_assoc] using h0
            simp only [List.zipWith_cons_cons, List.flatten_cons,
              List.append_assoc]
            rw [heq'']
        · rw [segmentGo_unch_false_small ctx change rest [] hdiff hbig,
            List.nil_append]
          obtain ⟨gaps', tail', hlen', heq', hcond'⟩ :=
            ih [change] false halt' hlin' hlast'
              (fun _ => Or.inr hnext)
              (fun h => absurd h (by simp))
              (fun h => absurd h (by simp))
          refine ⟨gaps', tail', hlen', ?_, fun hfalse => absurd rfl hfalse⟩
          rw [sideText_nil, List.nil_append, sideText_cons keep change rest,
            ← sideText_single keep change]
          exact heq'

/-- C1 (counterexample): for original = modified = "a\nb\nc\nd" (four
lines, no trailing terminator) the edit script is the single unchanged run
of the whole text; the lone emitted hunk carries "b\nc\nd\n" — not an infix
of the original — so no re-insertion of elided context lines reconstructs
the original (nor the modified) text. -/
theorem c1_reconstruction_cex :
    ¬ (ReconstructsTo (fun c => !c.added)
        (segment 3 [⟨['a', '\n', 'b', '\n', 'c', '\n', 'd'], false, false⟩])
        ['a', '\n', 'b', '\n', 'c', '\n', 'd'] ∧
      ReconstructsTo (fun c => !c.removed)
        (segment 3 [⟨['a', '\n', 'b', '\n', 'c', '\n', 'd'], false, false⟩])
        ['a', '\n', 'b', '\n', 'c', '\n', 'd']) := by
  rintro ⟨⟨gaps, tailGap, hlen, heq⟩, -⟩
  have hseg : segment 3 [⟨['a', '\n', 'b', '\n', 'c', '\n', 'd'], false, false⟩] =
      [[mkContext ['b', '\n', 'c', '\n', 'd', '\n']]] := by decide
  rw [hseg] at hlen heq
  rcases gaps with _ | ⟨g, gs⟩
  · simp at hlen
  rcases gs with _ | ⟨g₂, gs⟩
  · have hside : sideText (fun c => !c.added) [mkContext ['b', '\n', 'c', '\n', 'd', '\n']] =
        ['b', '\n', 'c', '\n', 'd', '\n'] := by decide
    simp only [List.zipWith_cons_cons, List.zipWith_nil_left, List.flatten_cons,
      List.flatten_nil, List.append_nil] at heq
    rw [hside] at heq
    have hinf : List.IsInfix (['b', '\n', 'c', '\n', 'd', '\n'] : Text)
        ['a', '\n', 'b', '\n', 'c', '\n', 'd'] := by
      refine ⟨g, tailGap, ?_⟩
      rw [heq]
    exact absurd hinf (by decide)
  · simp at hlen

/-- C1 (amended): for every coalesced edit script (no adjacent unchanged
runs) whose unchanged run values consist of terminated lines — the final
run may have an unterminated last line provided the script contains at
least one changed run; scripts without changed runs need fully terminated
values — the emitted hunks reconstruct the original text (unchanged plus
removed runs) and the modified text (unchanged plus added runs) exactly,
once the elided context gaps are re-inserted. -/
theorem c1_reconstruction (ctx : Nat) (changes : List Change)
    (halt : altOk changes)
    (hlin : ∀ c ∈ changes.dropLast, isDiff c = false → Lineated c.value)
    (hlast : ∀ c, changes.getLast? = some c → isDiff c = false →
      LooseLineated c.value)
    (hd : (∃ d ∈ changes, isDiff d = true) ∨
      (∀ c ∈ changes, isDiff c = false → Lineated c.value)) :
    ReconstructsTo (fun c => !c.added) (segment ctx changes)
      (sideText (fun c => !c.added) changes) ∧
    ReconstructsTo (fun c => !c.removed) (segment ctx changes)
      (sideText (fun c => !c.removed) changes) := by
  constructor
  · obtain ⟨gaps, tailGap, hlen, heq, -⟩ :=
      segmentGo_reconstructs ctx (fun c => !c.added)
        (fun c h => by
          rw [isDiff, Bool.or_eq_false_iff] at h
          simp [h.1])
        changes [] false halt hlin hlast
        (fun _ => Or.inl rfl) (fun h => absurd h (by simp)) (fun _ => hd)
    exact ⟨gaps, tailGap, hlen, by simpa [sideText_nil] using heq⟩
  · obtain ⟨gaps, tailGap, hlen, heq, -⟩ :=
      segmentGo_reconstructs ctx (fun c => !c.removed)
        (fun c h => by
          rw [isDiff, Bool.or_eq_false_iff] at h
          simp [h.2])
        changes [] false halt hlin hlast
        (fun _ => Or.inl rfl) (fun h => absurd h (by simp)) (fun _ => hd)
    exact ⟨gaps, tailGap, hlen, by simpa [sideText_nil] using heq⟩

/-- C1 witness: the one-run removed script "x\n" → "". -/
theorem c1_reconstruction_witness :
    ReconstructsTo (fun c => !c.added)
      (segment 3 [⟨['x', '\n'], false, true⟩])
      (sideText (fun c => !c.added) [⟨['x', '\n'], false, true⟩]) ∧
    ReconstructsTo (fun c => !c.removed)
      (segment 3 [⟨['x', '\n'], false, true⟩])
      (sideText (fun c => !c.removed) [⟨['x', '\n'], false, true⟩]) :=
  c1_reconstruction 3 [⟨['x', '\n'], false, true⟩]
    (by simp [altOk])
    (by simp)
    (by
      intro c hc hcd
      simp only [List.getLast?_singleton, Option.some.injEq] at hc
      rw [← hc] at hcd
      simp [isDiff] at hcd)
    (Or.inl ⟨⟨['x', '\n'], false, true⟩, by simp, rfl⟩)

end PSplit
